import Mathlib

/-!
Verification development for the `bush` scraping scripts.

The repository consists of four Python scripts that fetch pages, extract
image URLs or article bodies, convert HTML fragments to Markdown and write
the results to disk.  This file gives a shallow embedding of the pure parts
of those scripts (the regex passes of `html_to_markdown`, the content
extractor, `sanitize_filename` together with the relevant fragment of
CPython's `urllib.parse`, `extract_image_urls`, and the writer / fetcher
steps as explicit state passing), and proves or refutes the documented
properties of the pipeline.

Strings are modelled as `List Char`; each Python `re` substitution is
embedded as a dedicated matcher (faithful to the backtracking order of the
specific pattern, which for these patterns is determined by the greedy /
lazy structure of the character classes) driven by a generic
leftmost-non-overlapping engine.  Machine-level notions that the statements
do not depend on (exact Unicode tables of `\w` and `\s`, the randomised
`hash` of CPython) are modelled explicitly where they occur, with comments.
-/

namespace Bush

/-- Characters of a Python `str`, in order. -/
abbrev Chars := List Char

/-- The single-quote character, written via its code point. -/
def squote : Char := Char.ofNat 39

/-- Python `\s` for the ASCII plane: space, tab, newline, CR, VT, FF.
(`re` on `str` also accepts some non-ASCII spaces; none occur in this
development.) -/
def isPyWs (c : Char) : Bool :=
  c = ' ' || c = '\t' || c = '\n' || c = '\r' || c = '\x0b' || c = '\x0c'

/-- ASCII letter test. -/
def isAsciiAlpha (c : Char) : Bool :=
  ('a' ≤ c && c ≤ 'z') || ('A' ≤ c && c ≤ 'Z')

/-- ASCII digit test. -/
def isAsciiDigit (c : Char) : Bool :=
  '0' ≤ c && c ≤ '9'

/-- ASCII lower-casing, used for case-insensitive regex literals and for
`str.lower()` on scheme names. -/
def asciiLower (c : Char) : Char :=
  if 'A' ≤ c && c ≤ 'Z' then Char.ofNat (c.toNat + 32) else c

/-- Strip a literal pattern from the head of the input, returning the rest. -/
def dropLit : Chars → Chars → Option Chars
  | [], s => some s
  | _ :: _, [] => none
  | p :: ps, c :: cs => if p = c then dropLit ps cs else none

/-- Strip a literal pattern from the head of the input, comparing ASCII
case-insensitively (Python `re.IGNORECASE` on ASCII literals). -/
def dropLitCI : Chars → Chars → Option Chars
  | [], s => some s
  | _ :: _, [] => none
  | p :: ps, c :: cs => if asciiLower p = asciiLower c then dropLitCI ps cs else none

/-- Split at the first occurrence of a character: `some (before, after)`
where the character itself is consumed; `none` when it does not occur.
This is the deterministic reading of a greedy `[^x]*` followed by the
literal `x`. -/
def splitAtChar (t : Char) : Chars → Option (Chars × Chars)
  | [] => none
  | c :: cs =>
    if c = t then some ([], cs)
    else match splitAtChar t cs with
      | some (a, b) => some (c :: a, b)
      | none => none

/-- Split at the last occurrence of a character: `some (before, fromChar)`
where the second component starts with the character. -/
def splitAtLastChar (t : Char) : Chars → Option (Chars × Chars)
  | [] => none
  | c :: cs =>
    match splitAtLastChar t cs with
    | some (a, b) => some (c :: a, b)
    | none => if c = t then some ([], c :: cs) else none

/-- First `some` value of a function over a list, in list order.  Used to
realise the backtracking order of a greedy subpattern: candidates are
listed in the order the regex engine tries them. -/
def firstSome {α β : Type} (f : α → Option β) : List α → Option β
  | [] => none
  | a :: as =>
    match f a with
    | some b => some b
    | none => firstSome f as

/-- All suffixes of the input reachable by consuming characters other than
`stop`, shortest consumption first.  Reversing the list gives the
greedy (longest-first) candidate order for a `[^stop]*` subpattern. -/
def classSuffixes (stop : Char) : Chars → List Chars
  | [] => [[]]
  | c :: cs => (c :: cs) :: (if c = stop then [] else classSuffixes stop cs)

/-- Consume the first occurrence of a literal pattern and return the rest,
scanning left to right — the semantics of a lazy `.*?` followed by the
literal (with `re.DOTALL`). -/
def findPast (pat : Chars) : Chars → Option Chars
  | [] => none
  | c :: cs =>
    match dropLit pat (c :: cs) with
    | some r => some r
    | none => findPast pat cs

/-- Shortest prefix (the lazy `(.*?)` group) such that the tail matcher
succeeds at the remaining position. -/
def lazyUntil (p : Chars → Option Unit) : Chars → Option Chars
  | [] =>
    match p [] with
    | some _ => some []
    | none => none
  | c :: cs =>
    match p (c :: cs) with
    | some _ => some []
    | none =>
      match lazyUntil p cs with
      | some g => some (c :: g)
      | none => none

/-- Engine of `re.sub`: at each position try the matcher (which returns the
replacement text and the input remaining after the match); on failure copy
one character and move on.  Every matcher used here consumes at least one
character on success, so fuel equal to the input length is exact. -/
def reSubAux (m : Chars → Option (Chars × Chars)) : Nat → Chars → Chars
  | 0, s => s
  | _ + 1, [] => []
  | f + 1, c :: cs =>
    match m (c :: cs) with
    | some (repl, rest) => repl ++ reSubAux m f rest
    | none => c :: reSubAux m f cs

/-- One full left-to-right non-overlapping substitution pass. -/
def reSub (m : Chars → Option (Chars × Chars)) (s : Chars) : Chars :=
  reSubAux m s.length s

/-- Engine of `re.finditer`: collect the value produced at each
non-overlapping match, left to right. -/
def reFindAux (m : Chars → Option (Chars × Chars)) : Nat → Chars → List Chars
  | 0, _ => []
  | _ + 1, [] => []
  | f + 1, c :: cs =>
    match m (c :: cs) with
    | some (g, rest) => g :: reFindAux m f rest
    | none => reFindAux m f cs

/-- All non-overlapping match values of a pattern, left to right. -/
def reFind (m : Chars → Option (Chars × Chars)) (s : Chars) : List Chars :=
  reFindAux m s.length s

/-- Engine of `re.search`: the value of the pattern at the leftmost
position where it matches (the patterns used here cannot match the empty
string, so the end-of-input position never matches). -/
def reSearch {α : Type} (m : Chars → Option α) : Chars → Option α
  | [] => none
  | c :: cs =>
    match m (c :: cs) with
    | some r => some r
    | none => reSearch m cs

/-! ### Matchers for the substitution passes of `html_to_markdown`
(`src/specs/help/download_articles.py`, lines 93–138). -/

/-- Matcher for `<name[^>]*>([^<]K)</name>` replaced by `pre \1 post`,
where `K` is `+` when `nonEmpty` and `*` otherwise.  The greedy `[^>]*`
cannot cross the first `>` and the content class cannot cross the first
`<`, so the match is deterministic. -/
def matchTagPair (name : Chars) (nonEmpty : Bool) (pre post : Chars)
    (s : Chars) : Option (Chars × Chars) := do
  let r1 ← dropLit ('<' :: name) s
  let (_, r2) ← splitAtChar '>' r1
  let (content, r3) := r2.span (fun c => c ≠ '<')
  if nonEmpty && content.isEmpty then none else
  let r4 ← dropLit ('<' :: '/' :: (name ++ ['>'])) r3
  some (pre ++ content ++ post, r4)

/-- Matcher for an opening tag alone, `<name[^>]*>`, with a fixed
replacement. -/
def matchOpenTag (name : Chars) (repl : Chars) (s : Chars) :
    Option (Chars × Chars) := do
  let r1 ← dropLit ('<' :: name) s
  let (_, r2) ← splitAtChar '>' r1
  some (repl, r2)

/-- Matcher for a literal pattern with a fixed replacement (also the
engine-level model of `str.replace`). -/
def matchLit (pat repl : Chars) (s : Chars) : Option (Chars × Chars) :=
  (dropLit pat s).map (fun r => (repl, r))

/-- Matcher for `<name[^>]*>.*?</name>` with `re.DOTALL`, removed outright
(the `<script>` and `<style>` passes). -/
def matchBlock (name : Chars) (s : Chars) : Option (Chars × Chars) := do
  let r1 ← dropLit ('<' :: name) s
  let (_, r2) ← splitAtChar '>' r1
  let r3 ← findPast ('<' :: '/' :: (name ++ ['>'])) r2
  some ([], r3)

/-- Matcher for `<a[^>]*href="([^"]*)"[^>]*>([^<]*)</a>` replaced by
`[\2](\1)`.  Only the first `[^>]*` has real backtracking: candidates are
tried longest first.  Note that the `[^"]*` group CAN cross `>`, which is
what lets a `>` inside a quoted attribute value survive into the output. -/
def matchA (s : Chars) : Option (Chars × Chars) := do
  let r1 ← dropLit ('<' :: ['a']) s
  firstSome (fun r2 => do
      let r3 ← dropLit ('h' :: 'r' :: 'e' :: 'f' :: '=' :: ['"']) r2
      let (url, r4) ← splitAtChar '"' r3
      let (_, r5) ← splitAtChar '>' r4
      let (text, r6) := r5.span (fun c => c ≠ '<')
      let r7 ← dropLit ('<' :: '/' :: 'a' :: ['>']) r6
      some ('[' :: text ++ ']' :: '(' :: url ++ [')'], r7))
    (classSuffixes '>' r1).reverse

/-- Matcher for `<br\s*/?>` replaced by a newline. -/
def matchBr (s : Chars) : Option (Chars × Chars) := do
  let r1 ← dropLit ('<' :: 'b' :: ['r']) s
  let r2 := r1.dropWhile isPyWs
  let r3 := match r2 with
    | '/' :: t => t
    | _ => r2
  match r3 with
  | '>' :: t => some (['\n'], t)
  | _ => none

/-- The final tag-stripping pass `re.sub(r'<[^>]+>', '', html)`: on a `<`
whose first following `>` leaves at least one character in between, drop
through that `>`; otherwise copy one character.  Fuel equal to the input
length is exact since every step consumes input. -/
def stripTagsAux : Nat → Chars → Chars
  | 0, l => l
  | _ + 1, [] => []
  | f + 1, c :: cs =>
    if c = '<' then
      match splitAtChar '>' cs with
      | some (m, after) =>
        if m.isEmpty then c :: stripTagsAux f cs else stripTagsAux f after
      | none => c :: stripTagsAux f cs
    else c :: stripTagsAux f cs

/-- Remove every complete HTML tag, the pass `re.sub(r'<[^>]+>', '', html)`. -/
def stripTags (l : Chars) : Chars := stripTagsAux l.length l

/-- The pass `re.sub(r'\n{3,}', '\n\n', html)`: every maximal run of three
or more newlines collapses to exactly two (realised by deleting the leading
newline while the two following characters are also newlines). -/
def collapseNL : Chars → Chars
  | [] => []
  | c :: cs =>
    if c = '\n' then
      match cs with
      | d :: e :: _ =>
        if d = '\n' ∧ e = '\n' then collapseNL cs else c :: collapseNL cs
      | _ => c :: collapseNL cs
    else c :: collapseNL cs

/-- The pass `re.sub(r' {2,}', ' ', html)`: every maximal run of two or
more spaces collapses to one (realised by deleting the leading space while
the following character is also a space). -/
def collapseSP : Chars → Chars
  | [] => []
  | c :: cs =>
    if c = ' ' then
      match cs with
      | d :: _ => if d = ' ' then collapseSP cs else c :: collapseSP cs
      | _ => c :: collapseSP cs
    else c :: collapseSP cs

/-- Python `str.strip()`: drop leading and trailing whitespace. -/
def pyStrip (l : Chars) : Chars :=
  ((l.dropWhile isPyWs).reverse.dropWhile isPyWs).reverse

/-- The ordered substitution passes of `html_to_markdown`
(`src/specs/help/download_articles.py`, lines 95–129), in source order:
script/style removal, headings, paragraphs, links, emphasis, lists, code
and line breaks. -/
def htmlPasses (s0 : Chars) : Chars :=
  let s := reSub (matchBlock ('s' :: 'c' :: 'r' :: 'i' :: 'p' :: ['t'])) s0
  let s := reSub (matchBlock ('s' :: 't' :: 'y' :: 'l' :: ['e'])) s
  let s := reSub (matchTagPair ('h' :: ['1']) true ('#' :: [' ']) []) s
  let s := reSub (matchTagPair ('h' :: ['2']) true ('#' :: '#' :: [' ']) []) s
  let s := reSub (matchTagPair ('h' :: ['3']) true ('#' :: '#' :: '#' :: [' ']) []) s
  let s := reSub (matchTagPair ('h' :: ['4']) true ('#' :: '#' :: '#' :: '#' :: [' ']) []) s
  let s := reSub (matchTagPair ['p'] false [] ('\n' :: ['\n'])) s
  let s := reSub matchA s
  let s := reSub (matchTagPair ('s' :: 't' :: 'r' :: 'o' :: 'n' :: ['g']) false ('*' :: ['*']) ('*' :: ['*'])) s
  let s := reSub (matchTagPair ['b'] false ('*' :: ['*']) ('*' :: ['*'])) s
  let s := reSub (matchTagPair ('e' :: ['m']) false ['*'] ['*']) s
  let s := reSub (matchTagPair ['i'] false ['*'] ['*']) s
  let s := reSub (matchTagPair ('l' :: ['i']) false ('-' :: [' ']) ['\n']) s
  let s := reSub (matchOpenTag ('u' :: ['l']) []) s
  let s := reSub (matchLit ('<' :: '/' :: 'u' :: 'l' :: ['>']) ['\n']) s
  let s := reSub (matchOpenTag ('o' :: ['l']) []) s
  let s := reSub (matchLit ('<' :: '/' :: 'o' :: 'l' :: ['>']) ['\n']) s
  let s := reSub (matchTagPair ('c' :: 'o' :: 'd' :: ['e']) false ['`'] ['`']) s
  let s := reSub (matchTagPair ('p' :: 'r' :: ['e']) false ('`' :: '`' :: '`' :: ['\n']) ('\n' :: '`' :: '`' :: ['`'])) s
  reSub matchBr s

/-- The Markdown converter `html_to_markdown` of
`src/specs/help/download_articles.py` (lines 93–138): the substitution
passes, then tag stripping, newline and space collapsing, and trimming. -/
def html_to_markdownL (s0 : Chars) : Chars :=
  pyStrip (collapseSP (collapseNL (stripTags (htmlPasses s0))))

/-- String-level wrapper of the Markdown converter. -/
def html_to_markdown (s : String) : String :=
  String.mk (html_to_markdownL s.data)

/-- Absence of a complete HTML tag: no `<` is followed by one or more
characters other than `>` and then a `>`.  Concretely, every `<` either is
immediately followed by `>` or has no `>` anywhere after it. -/
def noCompleteTag : Chars → Bool
  | [] => true
  | c :: rest =>
    if c = '<' then
      match rest with
      | [] => true
      | d :: _ => if d = '>' then noCompleteTag rest else !rest.contains '>'
    else noCompleteTag rest

/-- Substring test (Python `in` on strings). -/
def containsSub (pat : Chars) : Chars → Bool
  | [] => pat.isEmpty
  | c :: cs => pat.isPrefixOf (c :: cs) || containsSub pat cs

/-! ### Content extractor (`src/specs/help/download_articles.py`, lines 74–91). -/

/-- Group of `re.search(r'<h1[^>]*>([^<]+)</h1>', html)` at one position. -/
def matchH1Search (s : Chars) : Option Chars := do
  let r1 ← dropLit "<h1".data s
  let (_, r2) ← splitAtChar '>' r1
  let (content, r3) := r2.span (fun c => c ≠ '<')
  if content.isEmpty then none else
  let _ ← dropLit "</h1>".data r3
  pure content

/-- Tail pattern `</div>\s*</div>\s*</article>` of the article-body regex. -/
def bodyTail (r : Chars) : Option Unit := do
  let a ← dropLit "</div>".data r
  let b ← dropLit "</div>".data (a.dropWhile isPyWs)
  let _ ← dropLit "</article>".data (b.dropWhile isPyWs)
  pure ()

/-- Group of the body pattern
`<div[^>]*class="[^"]*article_body[^"]*"[^>]*>(.*?)</div>\s*</div>\s*</article>`
(`re.DOTALL`) at one position.  The two greedy classes backtrack longest
first; the lazy group takes the shortest prefix whose tail matches. -/
def matchBodyDiv (s : Chars) : Option Chars := do
  let r1 ← dropLit "<div".data s
  firstSome
    (fun r2 => do
      let r3 ← dropLit "class=\"".data r2
      firstSome
        (fun r4 => do
          let r5 ← dropLit "article_body".data r4
          let (_, r6) ← splitAtChar '"' r5
          let (_, r7) ← splitAtChar '>' r6
          lazyUntil bodyTail r7)
        (classSuffixes '"' r3).reverse)
    (classSuffixes '>' r1).reverse

/-- Group of the fallback pattern `<article[^>]*>(.*?)</article>`
(`re.DOTALL`) at one position. -/
def matchArticleBody (s : Chars) : Option Chars := do
  let r1 ← dropLit "<article".data s
  let (_, r2) ← splitAtChar '>' r1
  lazyUntil (fun r => (dropLit "</article>".data r).map (fun _ => ())) r2

/-- The content extractor `extract_content`: first `<h1>` text (sentinel
`"Untitled"` when absent), and the article body via the class-marker
pattern, the `<article>` fallback, or empty. -/
def extract_contentL (html : Chars) : Chars × Chars :=
  let title := match reSearch matchH1Search html with
    | some t => t
    | none => "Untitled".data
  let body := match reSearch matchBodyDiv html with
    | some b => b
    | none =>
      match reSearch matchArticleBody html with
      | some b => b
      | none => []
  (title, body)

/-- String-level wrapper of the content extractor. -/
def extract_content (html : String) : String × String :=
  let tb := extract_contentL html.data
  (String.mk tb.1, String.mk tb.2)

/-! ### CPython `urllib.parse` fragment used by `sanitize_filename` and
`extract_image_urls` (`urlparse`, `urljoin`, `urlunparse`). -/

/-- Result of `urlparse`: the six components. -/
structure ParsedUrl where
  scheme : Chars
  netloc : Chars
  path : Chars
  params : Chars
  query : Chars
  fragment : Chars
deriving Repr, DecidableEq

/-- Characters allowed after the first character of a URL scheme. -/
def schemeChar (c : Char) : Bool :=
  isAsciiAlpha c || isAsciiDigit c || c = '+' || c = '-' || c = '.'

/-- CPython `urlsplit` removes every tab, CR and LF before parsing. -/
def removeUnsafeUrlChars (l : Chars) : Chars :=
  l.filter (fun c => !(c = '\t' || c = '\r' || c = '\n'))

/-- Scheme detection of CPython `urlsplit`: the text before the first `:`
is a scheme when it is non-empty, starts with an ASCII letter and consists
of scheme characters; otherwise the default scheme applies and nothing is
consumed. -/
def schemeSplit (url defScheme : Chars) : Chars × Chars :=
  match splitAtChar ':' url with
  | some (before, after) =>
    if !before.isEmpty && isAsciiAlpha (before.headD ' ')
        && (before.drop 1).all schemeChar
    then (before.map asciiLower, after)
    else (defScheme, url)
  | none => (defScheme, url)

/-- Netloc split of CPython `urlsplit` (`_splitnetloc`): when the rest
starts with `//`, the netloc runs to the first `/`, `?` or `#`. -/
def netlocSplit (rest : Chars) : Chars × Chars :=
  if rest.take 2 = "//".data then
    ((rest.drop 2).takeWhile (fun c => !(c = '/' || c = '?' || c = '#')),
     (rest.drop 2).dropWhile (fun c => !(c = '/' || c = '?' || c = '#')))
  else ([], rest)

/-- Python `str.split(t, 1)`: the parts before and after the first
occurrence of `t` (everything and empty when absent). -/
def splitFirst (t : Char) (l : Chars) : Chars × Chars :=
  match splitAtChar t l with
  | some (a, b) => (a, b)
  | none => (l, [])

/-- CPython `urlsplit(url, defScheme)`: remove unsafe characters, detect
the scheme, split the netloc, then the fragment at the first `#` and the
query at the first `?`.  The `params` field is left empty; `urlparseL`
fills it. -/
def urlsplitL (url defScheme : Chars) : ParsedUrl :=
  let url := removeUnsafeUrlChars url
  let sr := schemeSplit url defScheme
  let nr := netlocSplit sr.2
  let fr := splitFirst '#' nr.2
  let pq := splitFirst '?' fr.1
  ⟨sr.1, nr.1, pq.1, [], pq.2, fr.2⟩

/-- CPython `uses_params` (schemes whose path carries `;`-parameters). -/
def usesParams : List Chars :=
  [[], "ftp".data, "hdl".data, "prospero".data, "http".data, "imap".data,
   "https".data, "shttp".data, "rtsp".data, "rtspu".data, "sip".data,
   "sips".data, "mms".data, "sftp".data, "tel".data]

/-- CPython `uses_relative` (schemes that support relative joining). -/
def usesRelative : List Chars :=
  [[], "ftp".data, "http".data, "gopher".data, "nntp".data, "imap".data,
   "wais".data, "file".data, "https".data, "shttp".data, "mms".data,
   "prospero".data, "rtsp".data, "rtspu".data, "sftp".data, "svn".data,
   "svn+ssh".data, "ws".data, "wss".data]

/-- CPython `uses_netloc` (schemes that use a network location). -/
def usesNetloc : List Chars :=
  [[], "ftp".data, "http".data, "gopher".data, "nntp".data, "telnet".data,
   "imap".data, "wais".data, "file".data, "mms".data, "https".data,
   "shttp".data, "snews".data, "prospero".data, "rtsp".data, "rtspu".data,
   "rsync".data, "svn".data, "svn+ssh".data, "sftp".data, "nfs".data,
   "git".data, "git+ssh".data, "ws".data, "wss".data, "itms-services".data]

/-- CPython `_splitparams`, called only when the path contains `;`:
split at the first `;` at or after the last `/` (or the first `;` overall
when there is no `/`). -/
def splitparamsL (path : Chars) : Chars × Chars :=
  match splitAtLastChar '/' path with
  | some (pre, fromSlash) =>
    match splitAtChar ';' fromSlash with
    | some (a, b) => (pre ++ a, b)
    | none => (path, [])
  | none =>
    match splitAtChar ';' path with
    | some (a, b) => (a, b)
    | none => (path, [])

/-- CPython `urlparse(url, defScheme)`: `urlsplit` plus the params split
for schemes in `uses_params`. -/
def urlparseL (url defScheme : Chars) : ParsedUrl :=
  let su := urlsplitL url defScheme
  if usesParams.contains su.scheme && su.path.contains ';' then
    let pp := splitparamsL su.path
    ⟨su.scheme, su.netloc, pp.1, pp.2, su.query, su.fragment⟩
  else su

/-- CPython `urlunsplit`. -/
def urlunsplitL (scheme netloc path query fragment : Chars) : Chars :=
  let url := if !netloc.isEmpty || path.take 2 = "//".data then
      '/' :: '/' :: (netloc ++
        (if !path.isEmpty && !(path.take 1 = "/".data) then '/' :: path else path))
    else path
  let url := if !scheme.isEmpty then scheme ++ ':' :: url else url
  let url := if !query.isEmpty then url ++ '?' :: query else url
  if !fragment.isEmpty then url ++ '#' :: fragment else url

/-- CPython `urlunparse`: re-attach params, then `urlunsplit`. -/
def urlunparseL (scheme netloc path params query fragment : Chars) : Chars :=
  urlunsplitL scheme netloc
    (if !params.isEmpty then path ++ ';' :: params else path) query fragment

/-- Python `str.split(sep)` for a one-character separator (empty pieces
kept). -/
def splitOnChar (sep : Char) : Chars → List Chars
  | [] => [[]]
  | c :: cs =>
    let r := splitOnChar sep cs
    if c = sep then [] :: r
    else match r with
      | h :: t => (c :: h) :: t
      | [] => [[c]]

/-- Python `sep.join(pieces)` for a one-character separator. -/
def joinOnChar (sep : Char) (l : List Chars) : Chars :=
  (List.intersperse [sep] l).flatten

/-- The `segments[1:-1] = filter(None, segments[1:-1])` step of `urljoin`:
drop empty segments strictly between the first and the last. -/
def filterMiddleSegs : List Chars → List Chars
  | [] => []
  | [a] => [a]
  | a :: rest =>
    match rest.getLast?, rest.dropLast with
    | some z, mid => a :: (mid.filter (fun x => !x.isEmpty) ++ [z])
    | none, _ => [a]

/-- CPython `urljoin(base, url)`: parse both (the url with the base's
scheme as default), bail out on scheme mismatch, adopt the base netloc,
merge the path segment lists and resolve `.` and `..`. -/
def urljoinL (base url : Chars) : Chars :=
  if base.isEmpty then url
  else if url.isEmpty then base
  else
    let b := urlparseL base []
    let u := urlparseL url b.scheme
    if !(u.scheme = b.scheme) || !usesRelative.contains u.scheme then url
    else if usesNetloc.contains u.scheme && !u.netloc.isEmpty then
      urlunparseL u.scheme u.netloc u.path u.params u.query u.fragment
    else
      let netloc := if usesNetloc.contains u.scheme then b.netloc else u.netloc
      if u.path.isEmpty && u.params.isEmpty then
        let query := if u.query.isEmpty then b.query else u.query
        urlunparseL u.scheme netloc b.path b.params query u.fragment
      else
        let baseParts := splitOnChar '/' b.path
        let baseParts :=
          if !(baseParts.getLast? = some []) then baseParts.dropLast else baseParts
        let segments :=
          if u.path.take 1 = "/".data then splitOnChar '/' u.path
          else filterMiddleSegs (baseParts ++ splitOnChar '/' u.path)
        let resolved := segments.foldl
          (fun acc seg =>
            if seg = "..".data then acc.dropLast
            else if seg = ".".data then acc
            else acc ++ [seg]) []
        let resolved :=
          if segments.getLast? = some ".".data || segments.getLast? = some "..".data
          then resolved ++ [[]] else resolved
        let joined := joinOnChar '/' resolved
        let joined := if joined.isEmpty then "/".data else joined
        urlunparseL u.scheme netloc joined u.params u.query u.fragment

/-! ### Filename sanitizer (`src/specs/download_screenshots.py`, lines
35–45) and the two filename schemes. -/

/-- Python `re` `\w` on `str` is Unicode-aware (letters, digits and the
underscore).  The ASCII plane is modelled exactly; beyond it this model
covers the Latin-1 supplement, whose word characters are `ª`, `µ`, `º` and
the letters `U+00C0`–`U+00FF` except `×` and `÷`.  No statement below uses
characters above `U+00FF`. -/
def isWordChar (c : Char) : Bool :=
  isAsciiAlpha c || isAsciiDigit c || c = '_' ||
  (0xC0 ≤ c.toNat && c.toNat ≤ 0xFF && !(c.toNat = 0xD7) && !(c.toNat = 0xF7)) ||
  c.toNat = 0xAA || c.toNat = 0xB5 || c.toNat = 0xBA

/-- A character kept unchanged by `re.sub(r'[^\w\-.]', '_', ...)`. -/
def safeChar (c : Char) : Bool :=
  isWordChar c || c = '-' || c = '.'

/-- `os.path.basename` (posixpath): the part after the last `/`. -/
def basenameL (p : Chars) : Chars :=
  match splitAtLastChar '/' p with
  | some (_, _ :: r) => r
  | some (_, []) => []
  | none => p

/-- `sanitize_filename` of `src/specs/download_screenshots.py`: URL path,
basename, strip from the first `?`, replace every character outside
`[\w\-.]` with `_`, and fall back to `"image"` when empty. -/
def sanitize_filenameL (url : Chars) : Chars :=
  let path := (urlparseL url []).path
  let filename := basenameL path
  let filename := (splitOnChar '?' filename).headD []
  let filename := filename.map (fun c => if safeChar c then c else '_')
  if filename.isEmpty then "image".data else filename

/-- String-level wrapper of the sanitizer. -/
def sanitize_filename (s : String) : String :=
  String.mk (sanitize_filenameL s.data)

/-- `os.path.splitext` (posixpath): split the extension at the last dot of
the final path component, provided some earlier character of that
component is not a dot. -/
def splitextL (p : Chars) : Chars × Chars :=
  let file := basenameL p
  match splitAtLastChar '.' file with
  | none => (p, [])
  | some (b, ext) =>
    if b.any (fun c => c ≠ '.') then (p.take (p.length - ext.length), ext)
    else (p, [])

/-- The image extensions recognised by `download_screenshots.py`. -/
def IMAGE_EXTENSIONS : List Chars :=
  [".png".data, ".jpg".data, ".jpeg".data, ".gif".data, ".webp".data, ".svg".data]

/-- `f"{i:03d}"`: decimal digits zero-padded to width three. -/
def pad3 (i : Nat) : Chars :=
  if i < 1000 then
    [Nat.digitChar (i / 100), Nat.digitChar (i / 10 % 10), Nat.digitChar (i % 10)]
  else (Nat.repr i).data

/-- The per-image filename of `process_page`
(`src/specs/download_screenshots.py`, lines 153–161):
`f"{name}_{url_hash}{ext}"` with `url_hash = abs(hash(img_url)) % 10000`.
CPython's string `hash` is process-randomised, so it enters as the
parameter `h`. -/
def screenshot_filename (h : String → Int) (url : String) : String :=
  let filename := sanitize_filename url
  let urlHash := (h url).natAbs % 10000
  let ne := splitextL filename.data
  let ext := if ne.2.isEmpty || !IMAGE_EXTENSIONS.contains ne.2 then ".png".data else ne.2
  String.mk (ne.1 ++ '_' :: (Nat.repr urlHash).data ++ ext)

/-- True when one of the given extensions is a suffix of the name. -/
def endsWithAnyExt (name : Chars) (exts : List Chars) : Bool :=
  exts.any (fun e => e.isSuffixOf name)

/-- The name-cleaning part of `src/scrape/download_help_images.py`
(lines 119–131): last URL segment, strip from `?`, undo three URL
escapes, truncate to 80, default the extension. -/
def image_nameL (url : Chars) : Chars :=
  let name := ((splitOnChar '/' url).getLast?).getD []
  let name := (splitOnChar '?' name).headD []
  let name := reSub (matchLit "%2B".data "+".data) name
  let name := reSub (matchLit "%2F".data "/".data) name
  let name := reSub (matchLit "%20".data " ".data) name
  let name := if name.length > 80 then name.take 80 else name
  if endsWithAnyExt name [".png".data, ".jpg".data, ".jpeg".data, ".gif".data, ".webp".data]
  then name else name ++ ".png".data

/-- The on-disk name `f"{i:03d}_{name}"` of `download_help_images.py`,
where `i` is the position of the URL in the manifest. -/
def help_images_filename (i : Nat) (url : String) : String :=
  String.mk (pad3 i ++ '_' :: image_nameL url.data)

/-! ### URL extractor (`src/specs/download_screenshots.py`, lines 63–120). -/

/-- The double or single quote class `["\']`. -/
def quoteChar (c : Char) : Bool :=
  c = '"' || c = squote

/-- The tail `["\']([^"\']+)["\']` shared by the `src` and `srcset`
patterns: an opening quote, a non-empty run free of both quotes, the
closing quote (either kind). -/
def quotedValue (r : Chars) : Option (Chars × Chars) :=
  match r with
  | c :: r2 =>
    if quoteChar c then
      let vr := r2.span (fun x => !quoteChar x)
      if vr.1.isEmpty then none
      else match vr.2 with
        | _ :: r4 => some (vr.1, r4)
        | [] => none
    else none
  | [] => none

/-- Matcher for `<img[^>]+src=["\']([^"\']+)["\']` (`re.IGNORECASE`),
returning the raw `src` value.  The greedy `[^>]+` backtracks longest
first and must consume at least one character. -/
def matchImg (s : Chars) : Option (Chars × Chars) := do
  let r1 ← dropLitCI "<img".data s
  firstSome
    (fun r2 => do
      let r3 ← dropLitCI "src=".data r2
      quotedValue r3)
    ((classSuffixes '>' r1).reverse.dropLast)

/-- Matcher for `srcset=["\']([^"\']+)["\']` (`re.IGNORECASE`), returning
the raw attribute value. -/
def matchSrcset (s : Chars) : Option (Chars × Chars) := do
  let r1 ← dropLitCI "srcset=".data s
  quotedValue r1

/-- The tail `["\']?\)` of the background pattern: an optional quote
directly before the closing parenthesis. -/
def bgTail (r : Chars) : Option Chars :=
  match r with
  | a :: b :: t =>
    if quoteChar a && b = ')' then some t
    else if a = ')' then some (b :: t)
    else none
  | [a] => if a = ')' then some [] else none
  | [] => none

/-- The part `([^)"\']+)["\']?\)` of the background pattern. -/
def bgCore (r : Chars) : Option (Chars × Chars) :=
  let vr := r.span (fun c => !(c = ')' || quoteChar c))
  if vr.1.isEmpty then none
  else (bgTail vr.2).map (fun t => (vr.1, t))

/-- Matcher for `url\(["\']?([^)"\']+)["\']?\)` (`re.IGNORECASE`).  The
leading optional quote is greedy: it is consumed when present, with the
empty alternative tried on failure (which then fails on the quote itself,
kept for fidelity to the backtracking order). -/
def matchBg (s : Chars) : Option (Chars × Chars) := do
  let r1 ← dropLitCI "url(".data s
  match r1 with
  | c :: t =>
    if quoteChar c then
      match bgCore t with
      | some res => some res
      | none => bgCore r1
    else bgCore r1
  | [] => none

/-- Matcher for a CDN pattern `PREFIX[^"\'>\s]+` (case-sensitive),
returning the whole match. -/
def matchCdn (pre : Chars) (s : Chars) : Option (Chars × Chars) := do
  let r1 ← dropLit pre s
  let vr := r1.span (fun c => !(c = '"' || c = squote || c = '>' || isPyWs c))
  if vr.1.isEmpty then none else some (pre ++ vr.1, vr.2)

/-- The URL normalisation applied to every `src`, `srcset` and `url(...)`
candidate: protocol-relative URLs get `https:`, root-relative and
scheme-less URLs are joined to the base, anything starting with `http` is
passed through. -/
def normalizeUrlL (base url : Chars) : Chars :=
  if url.take 2 = "//".data then "https:".data ++ url
  else if url.take 1 = "/".data then urljoinL base url
  else if !(url.take 4 = "http".data) then urljoinL base url
  else url

/-- `part.strip().split()[0]` for one srcset entry; `IndexError` (an empty
entry) is the `Except.error` case. -/
def srcsetFirstToken (part : Chars) : Except Unit Chars :=
  let p := pyStrip part
  if p.isEmpty then Except.error ()
  else Except.ok (p.takeWhile (fun c => !isPyWs c))

/-- First URL tokens of a srcset attribute value, entry by entry. -/
def srcsetTokens (value : Chars) : Except Unit (List Chars) :=
  (splitOnChar ',' value).mapM srcsetFirstToken

/-- Python `set.add` on an insertion-ordered list model of a set. -/
def setAdd (acc : List Chars) (u : Chars) : List Chars :=
  if u ∈ acc then acc else acc ++ [u]

/-- Normalised URLs contributed by the `img src` rule, in match order. -/
def imgCandidates (html base : Chars) : List Chars :=
  (reFind matchImg html).map (normalizeUrlL base)

/-- Normalised URLs contributed by the `srcset` rule (an empty entry
raises, hence `Except`). -/
def srcsetCandidates (html base : Chars) : Except Unit (List Chars) := do
  let toks ← (reFind matchSrcset html).mapM srcsetTokens
  pure (toks.flatten.map (normalizeUrlL base))

/-- Normalised URLs contributed by the `url(...)` rule, in match order. -/
def bgCandidates (html base : Chars) : List Chars :=
  (reFind matchBg html).map (normalizeUrlL base)

/-- URLs contributed by the three CDN-shape rules, in source order. -/
def cdnCandidates (html : Chars) : List Chars :=
  reFind (matchCdn "https://cdn.sanity.io/images/".data) html ++
  reFind (matchCdn "https://downloads.intercomcdn.com/".data) html ++
  reFind (matchCdn "https://files.buildwithfern.com/".data) html

/-- `extract_image_urls` of `src/specs/download_screenshots.py`: the four
rule families feed one set, in source order; an empty srcset entry escapes
as an exception (`Except.error`). -/
def extract_image_urlsL (html base : Chars) : Except Unit (List Chars) := do
  let srcs ← srcsetCandidates html base
  pure (List.foldl setAdd []
    (imgCandidates html base ++ srcs ++ bgCandidates html base ++ cdnCandidates html))

/-- String-level wrapper of the URL extractor. -/
def extract_image_urls (html base : String) : Except Unit (List String) :=
  (extract_image_urlsL html.data base.data).map (List.map String.mk)

/-- Number of distinct raw `img src` attribute values found in the HTML
(the `N` of the claimed `N + M` bound). -/
def distinctImgSrcCount (html : Chars) : Nat :=
  (List.foldl setAdd [] (reFind matchImg html)).length

/-- Number of distinct CDN-shaped URL substrings found in the HTML (the
`M` of the claimed `N + M` bound). -/
def distinctCdnCount (html : Chars) : Nat :=
  (List.foldl setAdd [] (cdnCandidates html)).length

/-- The ASCII-only safe set `[A-Za-z0-9_.-]` named by the specification. -/
def claimedSafeAscii (c : Char) : Bool :=
  isAsciiAlpha c || isAsciiDigit c || c = '_' || c = '.' || c = '-'

/-! ### Fetcher, writer and run counters
(`download_articles.py` lines 64–174 and 339–367,
`download_help_images.py` lines 25–37 and 110–136). -/

/-- Outcome of one HTTP request, the input of the fetcher models. -/
inductive NetOutcome where
  | success (body : String)
  | timeout
  | httpStatus (code : Nat)
  | connectionError
deriving DecidableEq

/-- `urllib.request.urlopen` raises on a timeout, on a connection error
and on a non-success HTTP status (`HTTPError`, e.g. 404); only a
successful response yields a body. -/
def urlopenResult (o : NetOutcome) : Option String :=
  match o with
  | .success b => some b
  | _ => none

/-- `fetch_article` of `download_articles.py` (lines 64–72): the bare
`try/except` around `urlopen` turns every raised error into `None`. -/
def fetch_article (o : NetOutcome) : Option String :=
  urlopenResult o

/-- The file system as a path-to-content map (later bindings shadow
earlier ones, as overwriting does). -/
abbrev FS := List (String × String)

/-- The fixed Markdown document template of `save_article`. -/
def mdDocument (title url category content : String) : String :=
  "# " ++ title ++ "\n\n> Source: " ++ url ++ "\n> Category: " ++ category ++
  "\n\n---\n\n" ++ content ++
  "\n\n---\n*This article was automatically converted from the Frame.io Help Center.*\n"

/-- `save_article` of `download_articles.py` (lines 140–174): success
without any write when the path exists; otherwise fetch (failure gives
`False`), extract, convert and write.  The disk write itself is modelled
as always succeeding. -/
def save_article (fs : FS) (url filepath category : String) (o : NetOutcome) :
    FS × Bool :=
  if (List.lookup filepath fs).isSome then (fs, true)
  else
    match fetch_article o with
    | none => (fs, false)
    | some html =>
      let tb := extract_content html
      let md := mdDocument tb.1 url category (html_to_markdown tb.2)
      ((filepath, md) :: fs, true)

/-- `download` of `download_help_images.py` (lines 25–37): fetch, then
write unconditionally — no existence check — returning `False` exactly
when the fetch raised. -/
def download (fs : FS) (url path : String) (o : NetOutcome) : FS × Bool :=
  match urlopenResult o with
  | none => (fs, false)
  | some data => ((path, data) :: fs, true)

/-- One iteration of the loop of `main` in `download_articles.py`
(lines 354–365): state is (files, success count, failed list); an entry is
(url, title, filepath, category, outcome). -/
def article_step (st : FS × Nat × List (String × String))
    (e : String × String × String × String × NetOutcome) :
    FS × Nat × List (String × String) :=
  let r := save_article st.1 e.1 e.2.2.1 e.2.2.2.1 e.2.2.2.2
  if r.2 then (r.1, st.2.1 + 1, st.2.2)
  else (r.1, st.2.1, st.2.2 ++ [(e.1, e.2.1)])

/-- The whole article run: fold the step over the manifest. -/
def run_articles (entries : List (String × String × String × String × NetOutcome))
    (st : FS × Nat × List (String × String)) : FS × Nat × List (String × String) :=
  entries.foldl article_step st

/-! ## Lemmas about `noCompleteTag` and the final passes of the converter. -/

theorem noTag_cons_ne (c : Char) (l : Chars) (h : ¬ c = '<') :
    noCompleteTag (c :: l) = noCompleteTag l := by
  simp [noCompleteTag, h]

theorem noTag_lt_gt (l : Chars) :
    noCompleteTag ('<' :: '>' :: l) = noCompleteTag l := by
  simp [noCompleteTag]

theorem noTag_lt_ne (d : Char) (l : Chars) (h : ¬ d = '>') :
    noCompleteTag ('<' :: d :: l) = !(d :: l).contains '>' := by
  simp [noCompleteTag, h]

theorem noTag_of_no_gt (l : Chars) (h : l.contains '>' = false) :
    noCompleteTag l = true := by
  induction l with
  | nil => rfl
  | cons c cs ih =>
    have hmem : ¬ ('>' : Char) ∈ (c :: cs) := by simpa using h
    have hcs : cs.contains '>' = false := by
      have : ¬ ('>' : Char) ∈ cs := fun hm => hmem (List.mem_cons_of_mem _ hm)
      simpa using this
    by_cases h2 : c = '<'
    · subst h2
      cases cs with
      | nil => rfl
      | cons d r =>
        have hd : ¬ d = '>' := by
          intro e
          exact hmem (by simp [e])
        rw [noTag_lt_ne d r hd, hcs]
        rfl
    · rw [noTag_cons_ne c cs h2]
      exact ih hcs

theorem noTag_lt_no_gt (x : Chars) (h : x.contains '>' = false) :
    noCompleteTag ('<' :: x) = true := by
  cases x with
  | nil => rfl
  | cons d r =>
    have hd : ¬ d = '>' := by
      intro e
      have : ('>' : Char) ∈ (d :: r) := by simp [e]
      have h2 : ¬ ('>' : Char) ∈ (d :: r) := by simpa using h
      exact h2 this
    rw [noTag_lt_ne d r hd, h]
    rfl

theorem splitAtChar_some_eq (t : Char) :
    ∀ (l a b : Chars), splitAtChar t l = some (a, b) → l = a ++ t :: b := by
  intro l
  induction l with
  | nil => intro a b h; simp [splitAtChar] at h
  | cons c cs ih =>
    intro a b h
    by_cases hc : c = t
    · simp only [splitAtChar, if_pos hc] at h
      obtain ⟨ha, hb⟩ := Prod.mk.injEq .. ▸ Option.some.inj h
      subst ha; subst hb; subst hc
      rfl
    · simp only [splitAtChar, if_neg hc] at h
      cases hr : splitAtChar t cs with
      | none => rw [hr] at h; simp at h
      | some p =>
        obtain ⟨a2, b2⟩ := p
        rw [hr] at h
        obtain ⟨ha, hb⟩ := Prod.mk.injEq .. ▸ Option.some.inj h
        subst ha; subst hb
        have := ih a2 b2 hr
        rw [List.cons_append, ← this]

theorem splitAtChar_none (t : Char) :
    ∀ l : Chars, splitAtChar t l = none → l.contains t = false := by
  intro l
  induction l with
  | nil => intro _; rfl
  | cons c cs ih =>
    intro h
    by_cases hc : c = t
    · simp [splitAtChar, hc] at h
    · simp only [splitAtChar, if_neg hc] at h
      cases hr : splitAtChar t cs with
      | none =>
        have h2 := ih hr
        have : ¬ (t ∈ cs) := by simpa using h2
        have hne : ¬ t = c := fun e => hc e.symm
        simpa [hne] using this
      | some p => rw [hr] at h; simp at h

theorem splitAtChar_not_mem (t : Char) :
    ∀ l : Chars, ¬ t ∈ l → splitAtChar t l = none := by
  intro l
  induction l with
  | nil => intro _; rfl
  | cons c cs ih =>
    intro h
    have hc : ¬ c = t := fun e => h (by simp [e])
    have hcs : ¬ t ∈ cs := fun hm => h (List.mem_cons_of_mem _ hm)
    simp [splitAtChar, hc, ih hcs]

theorem stripTagsAux_sublist : ∀ (f : Nat) (l : Chars),
    List.Sublist (stripTagsAux f l) l := by
  intro f
  induction f with
  | zero => intro l; exact List.Sublist.refl l
  | succ g ih =>
    intro l
    cases l with
    | nil => exact List.Sublist.refl []
    | cons c cs =>
      by_cases hc : c = '<'
      · subst hc
        cases hsp : splitAtChar '>' cs with
        | none =>
          have he : stripTagsAux (g+1) ('<' :: cs) = '<' :: stripTagsAux g cs := by
            simp [stripTagsAux, hsp]
          rw [he]
          exact List.Sublist.cons₂ _ (ih cs)
        | some p =>
          obtain ⟨m, after⟩ := p
          cases m with
          | nil =>
            have he : stripTagsAux (g+1) ('<' :: cs) = '<' :: stripTagsAux g cs := by
              simp [stripTagsAux, hsp]
            rw [he]
            exact List.Sublist.cons₂ _ (ih cs)
          | cons m0 mr =>
            have he : stripTagsAux (g+1) ('<' :: cs) = stripTagsAux g after := by
              simp [stripTagsAux, hsp]
            rw [he]
            have hcs : cs = (m0 :: mr) ++ '>' :: after :=
              splitAtChar_some_eq '>' cs _ _ hsp
            have h2 : List.Sublist after cs := by
              rw [hcs]
              exact (List.Sublist.cons _ (List.Sublist.refl after)).trans
                (List.sublist_append_right (m0 :: mr) ('>' :: after))
            exact List.Sublist.cons _ ((ih after).trans h2)
      · have he : stripTagsAux (g+1) (c :: cs) = c :: stripTagsAux g cs := by
          simp [stripTagsAux, hc]
        rw [he]
        exact List.Sublist.cons₂ _ (ih cs)

theorem contains_false_of_sublist (x l : Chars) (c : Char)
    (hs : List.Sublist x l) (h : l.contains c = false) :
    x.contains c = false := by
  have hm : ¬ c ∈ l := by simpa using h
  have : ¬ c ∈ x := fun hx => hm (hs.subset hx)
  simpa using this

theorem stripTagsAux_noTag : ∀ (f : Nat) (l : Chars), l.length ≤ f →
    noCompleteTag (stripTagsAux f l) = true := by
  intro f
  induction f using Nat.strong_induction_on with
  | _ f ih =>
    intro l hl
    cases f with
    | zero =>
      cases l with
      | nil => rfl
      | cons c cs => simp at hl
    | succ g =>
      cases l with
      | nil => rfl
      | cons c cs =>
        have hcs_len : cs.length ≤ g := by
          simpa using hl
        have ihg : ∀ l2 : Chars, l2.length ≤ g →
            noCompleteTag (stripTagsAux g l2) = true := ih g (Nat.lt_succ_self g)
        by_cases hc : c = '<'
        · subst hc
          cases hsp : splitAtChar '>' cs with
          | none =>
            have he : stripTagsAux (g+1) ('<' :: cs) = '<' :: stripTagsAux g cs := by
              simp [stripTagsAux, hsp]
            rw [he]
            exact noTag_lt_no_gt _
              (contains_false_of_sublist _ _ _ (stripTagsAux_sublist g cs)
                (splitAtChar_none '>' cs hsp))
          | some p =>
            obtain ⟨m, after⟩ := p
            cases m with
            | nil =>
              have hcseq : cs = '>' :: after := by
                simpa using splitAtChar_some_eq '>' cs [] after hsp
              have he : stripTagsAux (g+1) ('<' :: cs) = '<' :: stripTagsAux g cs := by
                simp [stripTagsAux, hsp]
              rw [he, hcseq]
              cases g with
              | zero =>
                rw [hcseq] at hcs_len
                simp at hcs_len
              | succ g2 =>
                have he2 : stripTagsAux (g2+1) ('>' :: after) = '>' :: stripTagsAux g2 after := by
                  simp [stripTagsAux]
                rw [he2, noTag_lt_gt]
                apply ih g2 (by omega)
                rw [hcseq] at hcs_len
                simp at hcs_len
                omega
            | cons m0 mr =>
              have he : stripTagsAux (g+1) ('<' :: cs) = stripTagsAux g after := by
                simp [stripTagsAux, hsp]
              rw [he]
              apply ihg
              have hcseq := splitAtChar_some_eq '>' cs (m0 :: mr) after hsp
              rw [hcseq] at hcs_len
              simp at hcs_len
              omega
        · have he : stripTagsAux (g+1) (c :: cs) = c :: stripTagsAux g cs := by
            simp [stripTagsAux, hc]
          rw [he, noTag_cons_ne c _ hc]
          exact ihg cs hcs_len

theorem stripTags_noTag (l : Chars) : noCompleteTag (stripTags l) = true :=
  stripTagsAux_noTag l.length l (Nat.le_refl _)

theorem collapseNL_cons_ne (c : Char) (cs : Chars) (hc : ¬ c = '\n') :
    collapseNL (c :: cs) = c :: collapseNL cs := by
  simp [collapseNL, hc]

theorem collapseNL_sublist : ∀ l : Chars, List.Sublist (collapseNL l) l := by
  intro l
  induction l with
  | nil => exact List.Sublist.refl []
  | cons c cs ih =>
    by_cases hc : c = '\n'
    · subst hc
      cases cs with
      | nil => exact List.Sublist.refl _
      | cons d rest =>
        cases rest with
        | nil =>
          have he : collapseNL ['\n', d] = '\n' :: collapseNL [d] := by
            simp [collapseNL]
          rw [he]
          exact List.Sublist.cons₂ _ ih
        | cons e r2 =>
          by_cases hde : d = '\n' ∧ e = '\n'
          · have he : collapseNL ('\n' :: d :: e :: r2) = collapseNL (d :: e :: r2) := by
              simp [collapseNL, hde]
            rw [he]
            exact List.Sublist.cons _ ih
          · have he : collapseNL ('\n' :: d :: e :: r2) = '\n' :: collapseNL (d :: e :: r2) := by
              simp [collapseNL, hde]
            rw [he]
            exact List.Sublist.cons₂ _ ih
    · rw [collapseNL_cons_ne c cs hc]
      exact List.Sublist.cons₂ _ ih

theorem collapseNL_noTag : ∀ l : Chars, noCompleteTag l = true →
    noCompleteTag (collapseNL l) = true := by
  intro l
  induction l with
  | nil => intro _; rfl
  | cons c cs ih =>
    intro h
    by_cases hc : c = '\n'
    · subst hc
      have hcs : noCompleteTag cs = true := by
        rwa [noTag_cons_ne _ _ (by decide)] at h
      cases cs with
      | nil => rfl
      | cons d rest =>
        cases rest with
        | nil =>
          have he : collapseNL ['\n', d] = '\n' :: collapseNL [d] := by
            simp [collapseNL]
          rw [he, noTag_cons_ne _ _ (by decide)]
          exact ih hcs
        | cons e r2 =>
          by_cases hde : d = '\n' ∧ e = '\n'
          · have he : collapseNL ('\n' :: d :: e :: r2) = collapseNL (d :: e :: r2) := by
              simp [collapseNL, hde]
            rw [he]
            exact ih hcs
          · have he : collapseNL ('\n' :: d :: e :: r2) = '\n' :: collapseNL (d :: e :: r2) := by
              simp [collapseNL, hde]
            rw [he, noTag_cons_ne _ _ (by decide)]
            exact ih hcs
    · rw [collapseNL_cons_ne c cs hc]
      by_cases h2 : c = '<'
      · subst h2
        cases cs with
        | nil => rfl
        | cons d r =>
          by_cases hd : d = '>'
          · subst hd
            have hr : noCompleteTag ('>' :: r) = true := by
              rw [noTag_cons_ne _ _ (by decide)]
              rwa [noTag_lt_gt] at h
            have hX := ih hr
            have he2 : collapseNL ('>' :: r) = '>' :: collapseNL r :=
              collapseNL_cons_ne _ _ (by decide)
            rw [he2] at hX ⊢
            rw [noTag_lt_gt]
            rwa [noTag_cons_ne _ _ (by decide)] at hX
          · rw [noTag_lt_ne d r hd] at h
            have hcont : (d :: r).contains '>' = false := by
              simpa using h
            exact noTag_lt_no_gt _
              (contains_false_of_sublist _ _ _ (collapseNL_sublist (d :: r)) hcont)
      · rw [noTag_cons_ne _ _ h2]
        rw [noTag_cons_ne _ _ h2] at h
        exact ih h

theorem collapseSP_cons_ne (c : Char) (cs : Chars) (hc : ¬ c = ' ') :
    collapseSP (c :: cs) = c :: collapseSP cs := by
  simp [collapseSP, hc]

theorem collapseSP_sublist : ∀ l : Chars, List.Sublist (collapseSP l) l := by
  intro l
  induction l with
  | nil => exact List.Sublist.refl []
  | cons c cs ih =>
    by_cases hc : c = ' '
    · subst hc
      cases cs with
      | nil => exact List.Sublist.refl _
      | cons d rest =>
        by_cases hd : d = ' '
        · have he : collapseSP (' ' :: d :: rest) = collapseSP (d :: rest) := by
            simp [collapseSP, hd]
          rw [he]
          exact List.Sublist.cons _ ih
        · have he : collapseSP (' ' :: d :: rest) = ' ' :: collapseSP (d :: rest) := by
            simp [collapseSP, hd]
          rw [he]
          exact List.Sublist.cons₂ _ ih
    · rw [collapseSP_cons_ne c cs hc]
      exact List.Sublist.cons₂ _ ih

theorem collapseSP_noTag : ∀ l : Chars, noCompleteTag l = true →
    noCompleteTag (collapseSP l) = true := by
  intro l
  induction l with
  | nil => intro _; rfl
  | cons c cs ih =>
    intro h
    by_cases hc : c = ' '
    · subst hc
      have hcs : noCompleteTag cs = true := by
        rwa [noTag_cons_ne _ _ (by decide)] at h
      cases cs with
      | nil => rfl
      | cons d rest =>
        by_cases hd : d = ' '
        · have he : collapseSP (' ' :: d :: rest) = collapseSP (d :: rest) := by
            simp [collapseSP, hd]
          rw [he]
          exact ih hcs
        · have he : collapseSP (' ' :: d :: rest) = ' ' :: collapseSP (d :: rest) := by
            simp [collapseSP, hd]
          rw [he, noTag_cons_ne _ _ (by decide)]
          exact ih hcs
    · rw [collapseSP_cons_ne c cs hc]
      by_cases h2 : c = '<'
      · subst h2
        cases cs with
        | nil => rfl
        | cons d r =>
          by_cases hd : d = '>'
          · subst hd
            have hr : noCompleteTag ('>' :: r) = true := by
              rw [noTag_cons_ne _ _ (by decide)]
              rwa [noTag_lt_gt] at h
            have hX := ih hr
            have he2 : collapseSP ('>' :: r) = '>' :: collapseSP r :=
              collapseSP_cons_ne _ _ (by decide)
            rw [he2] at hX ⊢
            rw [noTag_lt_gt]
            rwa [noTag_cons_ne _ _ (by decide)] at hX
          · rw [noTag_lt_ne d r hd] at h
            have hcont : (d :: r).contains '>' = false := by
              simpa using h
            exact noTag_lt_no_gt _
              (contains_false_of_sublist _ _ _ (collapseSP_sublist (d :: r)) hcont)
      · rw [noTag_cons_ne _ _ h2]
        rw [noTag_cons_ne _ _ h2] at h
        exact ih h

theorem noTag_append_right : ∀ (l w : Chars),
    noCompleteTag (l ++ w) = true → noCompleteTag l = true := by
  intro l w
  induction l with
  | nil => intro _; rfl
  | cons c l2 ih =>
    intro h
    rw [List.cons_append] at h
    by_cases hc : c = '<'
    · subst hc
      cases l2 with
      | nil => rfl
      | cons d r =>
        by_cases hd : d = '>'
        · subst hd
          rw [noTag_lt_gt]
          have h1 : noCompleteTag (('>' :: r) ++ w) = true := by
            rw [List.cons_append, noTag_cons_ne _ _ (by decide)]
            rw [List.cons_append, noTag_lt_gt] at h
            exact h
          have h2 := ih h1
          rwa [noTag_cons_ne _ _ (by decide)] at h2
        · rw [noTag_lt_ne d r hd]
          rw [List.cons_append, noTag_lt_ne d _ hd] at h
          have hcont : (d :: (r ++ w)).contains '>' = false := by
            simpa using h
          have hmem : ¬ ('>' : Char) ∈ (d :: (r ++ w)) := by simpa using hcont
          have : ¬ ('>' : Char) ∈ (d :: r) := by
            intro hm
            apply hmem
            rcases List.mem_cons.mp hm with h3 | h3
            · exact List.mem_cons.mpr (Or.inl h3)
            · exact List.mem_cons.mpr (Or.inr (List.mem_append_left _ h3))
          have h4 : (d :: r).contains '>' = false := by simpa using this
          rw [h4]
          rfl
    · rw [noTag_cons_ne _ _ hc]
      rw [noTag_cons_ne _ _ hc] at h
      exact ih h

theorem noTag_append_left : ∀ (w l : Chars),
    noCompleteTag (w ++ l) = true → noCompleteTag l = true := by
  intro w l
  induction w with
  | nil => intro h; simpa using h
  | cons c w2 ih =>
    intro h
    rw [List.cons_append] at h
    by_cases hc : c = '<'
    · subst hc
      cases hwl : w2 ++ l with
      | nil =>
        have : l = [] := (List.append_eq_nil.mp hwl).2
        rw [this]
        rfl
      | cons d r =>
        by_cases hd : d = '>'
        · subst hd
          apply ih
          rw [hwl] at h ⊢
          rw [noTag_lt_gt] at h
          rwa [noTag_cons_ne _ _ (by decide)]
        · rw [hwl, noTag_lt_ne d r hd] at h
          have hcont : (d :: r).contains '>' = false := by simpa using h
          have hl : l.contains '>' = false := by
            have hmem : ¬ ('>' : Char) ∈ w2 ++ l := by
              rw [hwl]
              simpa using hcont
            have : ¬ ('>' : Char) ∈ l := fun hm => hmem (List.mem_append_right _ hm)
            simpa using this
          exact noTag_of_no_gt l hl
    · rw [noTag_cons_ne _ _ hc] at h
      exact ih h

theorem pyStrip_noTag (l : Chars) (h : noCompleteTag l = true) :
    noCompleteTag (pyStrip l) = true := by
  have h1 : noCompleteTag (l.dropWhile isPyWs) = true := by
    apply noTag_append_left (l.takeWhile isPyWs)
    rw [List.takeWhile_append_dropWhile]
    exact h
  have h2 : l.dropWhile isPyWs =
      ((l.dropWhile isPyWs).reverse.dropWhile isPyWs).reverse ++
      ((l.dropWhile isPyWs).reverse.takeWhile isPyWs).reverse := by
    conv_lhs => rw [← List.reverse_reverse (l.dropWhile isPyWs)]
    rw [← List.reverse_append, List.takeWhile_append_dropWhile]
  apply noTag_append_right _ (((l.dropWhile isPyWs).reverse.takeWhile isPyWs).reverse)
  unfold pyStrip
  rw [← h2]
  exact h1

/-! ## Lemmas about the filename sanitizer. -/

theorem safeChar_not_special (c : Char) (h : safeChar c = true) :
    ¬ c = ':' ∧ ¬ c = '/' ∧ ¬ c = '?' ∧ ¬ c = '#' ∧ ¬ c = ';' ∧
    ¬ c = '\t' ∧ ¬ c = '\r' ∧ ¬ c = '\n' := by
  refine ⟨?_, ?_, ?_, ?_, ?_, ?_, ?_, ?_⟩ <;>
    exact fun e => absurd h (by subst e; decide)

theorem all_safe_not_mem (l : Chars) (hl : l.all safeChar = true) (c : Char)
    (hc : safeChar c = false) : ¬ c ∈ l := by
  intro hm
  rw [List.all_eq_true] at hl
  have h2 := hl c hm
  rw [hc] at h2
  exact Bool.noConfusion h2

theorem contains_false_of_not_mem (l : Chars) (c : Char) (h : ¬ c ∈ l) :
    l.contains c = false := by
  simpa using h

theorem removeUnsafe_of_safe (l : Chars) (hl : l.all safeChar = true) :
    removeUnsafeUrlChars l = l := by
  apply List.filter_eq_self.mpr
  intro a ha
  have hsafe : safeChar a = true := by
    rw [List.all_eq_true] at hl
    exact hl a ha
  obtain ⟨-, -, -, -, -, h6, h7, h8⟩ := safeChar_not_special a hsafe
  simp [h6, h7, h8]

theorem splitAtLastChar_not_mem (t : Char) :
    ∀ l : Chars, ¬ t ∈ l → splitAtLastChar t l = none := by
  intro l
  induction l with
  | nil => intro _; rfl
  | cons c cs ih =>
    intro h
    have hc : ¬ c = t := fun e => h (by simp [e])
    have hcs : ¬ t ∈ cs := fun hm => h (List.mem_cons_of_mem _ hm)
    simp [splitAtLastChar, ih hcs, hc]

theorem splitOnChar_not_mem (t : Char) :
    ∀ l : Chars, ¬ t ∈ l → splitOnChar t l = [l] := by
  intro l
  induction l with
  | nil => intro _; rfl
  | cons c cs ih =>
    intro h
    have hc : ¬ c = t := fun e => h (by simp [e])
    have hcs : ¬ t ∈ cs := fun hm => h (List.mem_cons_of_mem _ hm)
    simp [splitOnChar, ih hcs, hc]

theorem schemeSplit_safe (y : Chars) (hy : y.all safeChar = true) :
    schemeSplit y [] = ([], y) := by
  unfold schemeSplit
  rw [splitAtChar_not_mem ':' y (all_safe_not_mem y hy ':' (by decide))]

theorem netlocSplit_safe (y : Chars) (hy : y.all safeChar = true) :
    netlocSplit y = ([], y) := by
  unfold netlocSplit
  rw [if_neg]
  intro he
  have hm : ('/' : Char) ∈ y := by
    have h2 : ('/' : Char) ∈ y.take 2 := by rw [he]; simp
    exact List.take_subset 2 y h2
  exact all_safe_not_mem y hy '/' (by decide) hm

theorem splitFirst_not_mem (t : Char) (y : Chars) (h : ¬ t ∈ y) :
    splitFirst t y = (y, []) := by
  unfold splitFirst
  rw [splitAtChar_not_mem t y h]

theorem urlsplit_safe (y : Chars) (hy : y.all safeChar = true) :
    urlsplitL y [] = ⟨[], [], y, [], [], []⟩ := by
  unfold urlsplitL
  simp only [removeUnsafe_of_safe y hy, schemeSplit_safe y hy, netlocSplit_safe y hy,
    splitFirst_not_mem '#' y (all_safe_not_mem y hy '#' (by decide)),
    splitFirst_not_mem '?' y (all_safe_not_mem y hy '?' (by decide))]

theorem urlparse_path_safe (y : Chars) (hy : y.all safeChar = true) :
    (urlparseL y []).path = y := by
  unfold urlparseL
  rw [urlsplit_safe y hy]
  have hsc : ¬ (';' : Char) ∈ y := all_safe_not_mem y hy ';' (by decide)
  simp [hsc]

theorem map_safe_id (l : Chars) (hl : l.all safeChar = true) :
    l.map (fun c => if safeChar c then c else '_') = l := by
  induction l with
  | nil => rfl
  | cons c cs ih =>
    rw [List.all_cons] at hl
    obtain ⟨h1, h2⟩ := Bool.and_eq_true_iff.mp hl
    simp [h1, ih h2]

theorem sanitize_all_safe (url : Chars) :
    (sanitize_filenameL url).all safeChar = true := by
  unfold sanitize_filenameL
  dsimp only
  split
  · decide
  · rw [List.all_eq_true]
    intro c hc
    obtain ⟨x, -, hx⟩ := List.mem_map.mp hc
    rw [← hx]
    cases hsx : safeChar x with
    | true => simp [hsx]
    | false => simp [hsx]; decide

theorem sanitize_not_empty (url : Chars) :
    (sanitize_filenameL url).isEmpty = false := by
  unfold sanitize_filenameL
  dsimp only
  split
  · decide
  · rename_i h
    simpa using h

theorem sanitize_safe_fixed (y : Chars) (hy : y.all safeChar = true)
    (hne : y.isEmpty = false) : sanitize_filenameL y = y := by
  unfold sanitize_filenameL
  dsimp only
  rw [urlparse_path_safe y hy]
  have hb : basenameL y = y := by
    unfold basenameL
    rw [splitAtLastChar_not_mem '/' y (all_safe_not_mem y hy '/' (by decide))]
  rw [hb]
  rw [splitOnChar_not_mem '?' y (all_safe_not_mem y hy '?' (by decide))]
  simp only [List.headD]
  rw [map_safe_id y hy]
  rw [if_neg]
  simp [hne]

/-! ## Lemmas about the deduplicating set model and the padded counter. -/

theorem setAdd_nodup (acc : List Chars) (u : Chars) (h : acc.Nodup) :
    (setAdd acc u).Nodup := by
  unfold setAdd
  split
  · exact h
  · rename_i hu
    simp [List.nodup_append, h, hu]

theorem foldl_setAdd_nodup : ∀ (l : List Chars) (acc : List Chars), acc.Nodup →
    (List.foldl setAdd acc l).Nodup := by
  intro l
  induction l with
  | nil => intro acc h; exact h
  | cons x xs ih => intro acc h; exact ih _ (setAdd_nodup acc x h)

theorem setAdd_length (acc : List Chars) (u : Chars) :
    (setAdd acc u).length ≤ acc.length + 1 := by
  unfold setAdd
  split
  · omega
  · simp

theorem foldl_setAdd_length : ∀ (l : List Chars) (acc : List Chars),
    (List.foldl setAdd acc l).length ≤ acc.length + l.length := by
  intro l
  induction l with
  | nil => intro acc; simp
  | cons x xs ih =>
    intro acc
    calc (List.foldl setAdd (setAdd acc x) xs).length
        ≤ (setAdd acc x).length + xs.length := ih _
      _ ≤ acc.length + (x :: xs).length := by
          have := setAdd_length acc x
          simp only [List.length_cons]
          omega

theorem digitChar_inj_lt10 : ∀ a b : Fin 10,
    Nat.digitChar a = Nat.digitChar b → a = b := by decide

theorem pad3_length (i : Nat) (h : i < 1000) : (pad3 i).length = 3 := by
  unfold pad3
  rw [if_pos h]
  rfl

theorem pad3_inj (i j : Nat) (hi : i < 1000) (hj : j < 1000)
    (h : pad3 i = pad3 j) : i = j := by
  unfold pad3 at h
  rw [if_pos hi, if_pos hj] at h
  injection h with h1 h'
  injection h' with h2 h''
  injection h'' with h3 h4
  have ha1 : i / 100 < 10 := by omega
  have hb1 : j / 100 < 10 := by omega
  have ha2 : i / 10 % 10 < 10 := by omega
  have hb2 : j / 10 % 10 < 10 := by omega
  have ha3 : i % 10 < 10 := by omega
  have hb3 : j % 10 < 10 := by omega
  have e1 : i / 100 = j / 100 :=
    congrArg Fin.val (digitChar_inj_lt10 ⟨i / 100, ha1⟩ ⟨j / 100, hb1⟩ h1)
  have e2 : i / 10 % 10 = j / 10 % 10 :=
    congrArg Fin.val (digitChar_inj_lt10 ⟨i / 10 % 10, ha2⟩ ⟨j / 10 % 10, hb2⟩ h2)
  have e3 : i % 10 = j % 10 :=
    congrArg Fin.val (digitChar_inj_lt10 ⟨i % 10, ha3⟩ ⟨j % 10, hb3⟩ h3)
  omega

/-! ## Claim theorems. -/

/-- C1, counterexample: the image-download writer `download` does not skip
an existing path — writing `"B"` to a path that holds `"A"` succeeds and
leaves `"B"`, not `"A"`, on disk.  This refutes the claim that every write
operation of the pipeline, including the image-download writers, leaves an
existing file unchanged. -/
theorem download_overwrites_existing :
    (download [("p", "A")] "u" "p" (NetOutcome.success "B")).2 = true ∧
    List.lookup "p" (download [("p", "A")] "u" "p" (NetOutcome.success "B")).1
      = some "B" :=
  ⟨rfl, rfl⟩

/-- C1 (amended): the article saver `save_article` treats an existing path
as success and leaves the stored content unchanged; the image-download
writers overwrite (see the counterexample). -/
theorem save_article_skips_existing (fs : FS) (url filepath category : String)
    (o : NetOutcome) (c : String) (h : List.lookup filepath fs = some c) :
    save_article fs url filepath category o = (fs, true) ∧
    List.lookup filepath (save_article fs url filepath category o).1 = some c := by
  have he : save_article fs url filepath category o = (fs, true) := by
    unfold save_article
    rw [h]
    rfl
  exact ⟨he, by rw [he]; exact h⟩

/-- C1, witness: the skip branch at a concrete state. -/
theorem save_article_skips_existing_witness :
    save_article [("p", "A")] "u" "p" "c" (NetOutcome.success "B") = ([("p", "A")], true) ∧
    List.lookup "p" (save_article [("p", "A")] "u" "p" "c" (NetOutcome.success "B")).1
      = some "A" :=
  save_article_skips_existing [("p", "A")] "u" "p" "c" (NetOutcome.success "B") "A" rfl

/-- C2: a fetch that times out or returns HTTP status 404 yields `none` at
the fetcher boundary (no exception escapes — the model is total), the
image writer reports `false` without touching the file system, the article
loop counts exactly one more failure for that URL, and the run continues
with the remaining entries from that state. -/
theorem fetch_failure_contained (fs : FS) (succ : Nat)
    (failed : List (String × String)) (url title filepath category : String)
    (o : NetOutcome)
    (rest : List (String × String × String × String × NetOutcome))
    (ho : o = NetOutcome.timeout ∨ o = NetOutcome.httpStatus 404)
    (hfs : List.lookup filepath fs = none) :
    fetch_article o = none ∧
    download fs url filepath o = (fs, false) ∧
    article_step (fs, succ, failed) (url, title, filepath, category, o)
      = (fs, succ, failed ++ [(url, title)]) ∧
    run_articles ((url, title, filepath, category, o) :: rest) (fs, succ, failed)
      = run_articles rest (fs, succ, failed ++ [(url, title)]) := by
  have hf : fetch_article o = none := by
    rcases ho with h | h <;> (subst h; rfl)
  have hd : download fs url filepath o = (fs, false) := by
    rcases ho with h | h <;> (subst h; rfl)
  have hsave : save_article fs url filepath category o = (fs, false) := by
    unfold save_article
    rw [hfs, hf]
    rfl
  have hstep : article_step (fs, succ, failed) (url, title, filepath, category, o)
      = (fs, succ, failed ++ [(url, title)]) := by
    unfold article_step
    dsimp only
    rw [hsave]
    simp
  refine ⟨hf, hd, hstep, ?_⟩
  show List.foldl article_step _ _ = _
  rw [List.foldl_cons, hstep]
  rfl

/-- C2, witness: a timed-out fetch at a concrete state. -/
theorem fetch_failure_contained_witness :
    fetch_article NetOutcome.timeout = none ∧
    download [] "u" "p" NetOutcome.timeout = ([], false) ∧
    article_step ([], 0, []) ("u", "t", "p", "c", NetOutcome.timeout)
      = ([], 0, [("u", "t")]) ∧
    run_articles [("u", "t", "p", "c", NetOutcome.timeout)] ([], 0, [])
      = run_articles [] ([], 0, [("u", "t")]) :=
  fetch_failure_contained [] 0 [] "u" "t" "p" "c" NetOutcome.timeout []
    (Or.inl rfl) rfl

/-- C3, counterexample: on `<a href="x>y">t</a>` — an input whose only tag
is the `a` tag of the §4.4 vocabulary — the converter produces `[t](x>y)`,
which contains the literal character `>`.  This refutes the claim that the
output never contains `<` or `>`. -/
theorem html_to_markdown_emits_gt :
    html_to_markdown "<a href=\"x>y\">t</a>" = "[t](x>y)" ∧
    ((html_to_markdown "<a href=\"x>y\">t</a>").data.contains '>') = true :=
  ⟨rfl, rfl⟩

/-- C3 (amended): for every input string (not only the §4.4 vocabulary),
the output of `html_to_markdown` contains no complete HTML tag: no `<`
followed by one or more non-`>` characters and a closing `>`.  Stray `<`
or `>` characters from text or attribute values can survive. -/
theorem html_to_markdown_tag_free (s : Chars) :
    noCompleteTag (html_to_markdownL s) = true := by
  unfold html_to_markdownL
  exact pyStrip_noTag _ (collapseSP_noTag _ (collapseNL_noTag _ (stripTags_noTag _)))

/-- C4: on `"<h1>Title</h1><p>Hello <strong>world</strong></p>"` the
converter output starts with `"# Title"` and contains
`"Hello **world**"` (the full output is `"# TitleHello **world**"`). -/
theorem html_to_markdown_example :
    List.isPrefixOf "# Title".data
      (html_to_markdown "<h1>Title</h1><p>Hello <strong>world</strong></p>").data = true ∧
    containsSub "Hello **world**".data
      (html_to_markdown "<h1>Title</h1><p>Hello <strong>world</strong></p>").data = true :=
  ⟨rfl, rfl⟩

/-- C5: the filename sanitizer is idempotent on every input string. -/
theorem sanitize_filename_idem (s : String) :
    sanitize_filename (sanitize_filename s) = sanitize_filename s := by
  show String.mk (sanitize_filenameL (sanitize_filenameL s.data))
      = String.mk (sanitize_filenameL s.data)
  rw [sanitize_safe_fixed _ (sanitize_all_safe s.data) (sanitize_not_empty s.data)]

/-- C6, counterexample: the input `srcset="a.png"` has zero distinct
`img src` values and zero CDN-shaped substrings, yet the extractor returns
a one-element set, refuting the claimed `N + M` size bound (the srcset and
background rules also contribute URLs). -/
theorem extract_bound_counterexample :
    extract_image_urlsL "srcset=\"a.png\"".data "https://frame.io/x".data
      = Except.ok ["https://frame.io/a.png".data] ∧
    distinctImgSrcCount "srcset=\"a.png\"".data = 0 ∧
    distinctCdnCount "srcset=\"a.png\"".data = 0 :=
  ⟨rfl, rfl, rfl⟩

/-- C6 (amended): whenever the extractor returns (does not raise on an
empty srcset entry), its result is duplicate-free and its size is at most
the total number of matches of all four rule families: `img src`, srcset
entries, CSS `url(...)` references and CDN-shaped substrings. -/
theorem extract_nodup_bound (html base : Chars) (toks res : List Chars)
    (h1 : srcsetCandidates html base = Except.ok toks)
    (h2 : extract_image_urlsL html base = Except.ok res) :
    res.Nodup ∧
    res.length ≤ (imgCandidates html base).length + toks.length +
      (bgCandidates html base).length + (cdnCandidates html).length := by
  unfold extract_image_urlsL at h2
  rw [h1] at h2
  simp only [bind, Except.bind, pure, Except.pure] at h2
  have hres : res = List.foldl setAdd []
      (imgCandidates html base ++ toks ++ bgCandidates html base ++ cdnCandidates html) := by
    cases h2
    rfl
  subst hres
  constructor
  · exact foldl_setAdd_nodup _ [] List.nodup_nil
  · have h3 := foldl_setAdd_length
      (imgCandidates html base ++ toks ++ bgCandidates html base ++ cdnCandidates html) []
    simp only [List.length_append, List.length_nil] at h3 ⊢
    omega

/-- C6, witness: a concrete page with one image. -/
theorem extract_nodup_bound_witness :
    ([("http://a/b.png".data : Chars)]).Nodup ∧
    ([("http://a/b.png".data : Chars)]).length ≤
      (imgCandidates "<img src=\"http://a/b.png\">".data "https://frame.io/x".data).length +
      ([] : List Chars).length +
      (bgCandidates "<img src=\"http://a/b.png\">".data "https://frame.io/x".data).length +
      (cdnCandidates "<img src=\"http://a/b.png\">".data).length :=
  extract_nodup_bound "<img src=\"http://a/b.png\">".data "https://frame.io/x".data
    [] ["http://a/b.png".data] rfl rfl

/-- C7: the extractor's URL normalisation promotes `//cdn.example.com/a.png`
to `https://cdn.example.com/a.png` and resolves `/a.png` against
`https://frame.io/x` to `https://frame.io/a.png`, both as the bare
normalisation step and through the full extractor. -/
theorem url_normalization_examples :
    normalizeUrlL "https://frame.io/x".data "//cdn.example.com/a.png".data
      = "https://cdn.example.com/a.png".data ∧
    normalizeUrlL "https://frame.io/x".data "/a.png".data
      = "https://frame.io/a.png".data ∧
    extract_image_urls "<img src=\"//cdn.example.com/a.png\"><img src=\"/a.png\">"
      "https://frame.io/x"
      = Except.ok ["https://cdn.example.com/a.png", "https://frame.io/a.png"] :=
  ⟨rfl, rfl, rfl⟩

/-- C8, counterexample: on the non-ASCII input `"é"` the sanitizer keeps
`é` (Python `\w` is Unicode-aware), so the output is not confined to the
ASCII safe set `[A-Za-z0-9_.-]` claimed by the specification. -/
theorem sanitize_nonascii_counterexample :
    sanitize_filename "é" = "é" ∧
    ((sanitize_filename "é").data.all claimedSafeAscii) = false :=
  ⟨rfl, rfl⟩

/-- C8 (amended): every character of the sanitizer's output is a word
character (`\w`, Unicode-aware), a hyphen or a dot — anything else is
replaced by `_`.  On ASCII inputs this coincides with `[A-Za-z0-9_.-]`. -/
theorem sanitize_output_word_safe (s : String) :
    (sanitize_filename s).data.all safeChar = true := by
  show (sanitize_filenameL s.data).all safeChar = true
  exact sanitize_all_safe s.data

/-- C9, counterexample: the hash-based disambiguation of `process_page` is
not collision-free: for the realisation of the process-randomised `hash`
in which these two distinct URLs hash to the same residue, both produce
the file name `a_0.png`. -/
theorem hash_disambiguation_collides :
    (("https://x.com/a.png?v=1" : String) == "https://x.com/a.png?v=2") = false ∧
    screenshot_filename (fun _ => 0) "https://x.com/a.png?v=1"
      = screenshot_filename (fun _ => 0) "https://x.com/a.png?v=2" ∧
    screenshot_filename (fun _ => 0) "https://x.com/a.png?v=1" = "a_0.png" :=
  ⟨rfl, rfl, rfl⟩

/-- C9 (amended): the zero-padded sequence-number prefix of
`download_help_images.py` does guarantee distinct paths within a run —
entries at distinct manifest positions (the run has fewer than 1000) get
distinct file names whatever the cleaned names are.  The hash-suffix
scheme of `process_page` gives no such guarantee (see the
counterexample). -/
theorem seq_disambiguation_injective (i j : Nat) (n m : String)
    (hi : i < 1000) (hj : j < 1000) (hne : (i == j) = false) :
    (help_images_filename i n == help_images_filename j m) = false := by
  rw [beq_eq_false_iff_ne] at hne ⊢
  intro heq
  apply hne
  have hdata : pad3 i ++ '_' :: image_nameL n.data
      = pad3 j ++ '_' :: image_nameL m.data := by
    have h2 := congrArg String.data heq
    simpa [help_images_filename] using h2
  have hlen : (pad3 i).length = (pad3 j).length := by
    rw [pad3_length i hi, pad3_length j hj]
  obtain ⟨hp, -⟩ := List.append_inj hdata hlen
  exact pad3_inj i j hi hj hp

/-- C9, witness: two concrete manifest positions. -/
theorem seq_disambiguation_injective_witness :
    (0 : Nat) < 1000 ∧ (1 : Nat) < 1000 ∧ ((0 : Nat) == 1) = false ∧
    (help_images_filename 0 "a" == help_images_filename 1 "a") = false :=
  ⟨by decide, by decide, rfl,
    seq_disambiguation_injective 0 1 "a" "a" (by decide) (by decide) rfl⟩

/-- C10: the sanitizer never returns an empty name — when the extracted
and cleaned basename is empty (for example a URL whose path ends in `/`)
it falls back to `"image"`. -/
theorem sanitize_filename_nonempty (s : String) :
    0 < (sanitize_filename s).length ∧
    sanitize_filename "https://help.frame.io/en/" = "image" := by
  constructor
  · show 0 < (sanitize_filenameL s.data).length
    have h := sanitize_not_empty s.data
    cases hl : sanitize_filenameL s.data with
    | nil => rw [hl] at h; exact absurd h (by decide)
    | cons a l2 => simp
  · rfl

end Bush
